import Mathlib

/-!
Shallow embedding of the android_port audio pipeline
(`RingBuffer.h`, `Resampler3x.h`, `StftProcessor.h/.cpp`,
`FullDuplexEngine.cpp`) together with theorems about it.

Modelling conventions:
* Audio samples (C `float`) are modelled as exact rationals `ℚ`;
  the data-movement and index arithmetic of the code is independent of
  the sample representation.
* C `int` / `int32_t` quantities are modelled as `ℤ` where sign matters
  and as `ℕ` where the code only ever sees non-negative values; the
  two's-complement wrap of `nextPow2` is modelled explicitly.
* The monotonically increasing `uint64_t` frame counters are modelled
  as `ℕ`.
* Buffers are modelled as total functions `ℕ → ℚ` (resp. lists for the
  outputs that the code writes sequentially).
-/

namespace AndroidPort

/-! ## Bitwise helpers -/

/-- Masking with `2^k - 1` is reduction mod `2^k` (the code relies on
power-of-two ring capacities for exactly this identity). -/
theorem land_two_pow_sub_one (x k : ℕ) : x &&& (2 ^ k - 1) = x % 2 ^ k := by
  apply Nat.eq_of_testBit_eq
  intro i
  rw [Nat.testBit_and, Nat.testBit_two_pow_sub_one, Nat.testBit_mod_two_pow]
  cases h : x.testBit i <;> simp [h, Bool.and_comm]

/-! ## RingBuffer (`RingBuffer.h`)

State of `class RingBuffer`: interleaved float storage `mData`,
channel count, capacity in frames (a power of two after `init`),
and the two monotone frame counters `mRead`/`mWrite`. -/

structure RingBuffer where
  channels : ℕ
  capacityFrames : ℕ
  data : ℕ → ℚ
  read : ℕ
  write : ℕ

namespace RingBuffer

/-- `mMask = mCapacityFrames - 1`. -/
def mask (rb : RingBuffer) : ℕ := rb.capacityFrames - 1

/-- `availableToRead`: `w - r` (frames). -/
def availableToRead (rb : RingBuffer) : ℕ := rb.write - rb.read

/-- `availableToWrite`: `capacity - availableToRead`. -/
def availableToWrite (rb : RingBuffer) : ℕ :=
  rb.capacityFrames - availableToRead rb

/-- Result of `writeInterleaved`: frames actually written and the new
buffer state. -/
structure WriteResult where
  count : ℕ
  state : RingBuffer

/-- `writeInterleaved(src, frames)`: clamp to `availableToWrite`, copy a
first contiguous segment at `(w & mask) * channels` and (on wrap) a
second segment at offset `0`, then publish `w + frames`. -/
def writeInterleaved (rb : RingBuffer) (src : ℕ → ℚ) (frames : ℕ) :
    WriteResult :=
  let frames := min frames (availableToWrite rb)
  let w := rb.write
  let first := min frames (rb.capacityFrames - (w &&& rb.mask))
  let second := frames - first
  let base := (w &&& rb.mask) * rb.channels
  let data' : ℕ → ℚ := fun j =>
    if base ≤ j ∧ j < base + first * rb.channels then src (j - base)
    else if j < second * rb.channels then src (first * rb.channels + j)
    else rb.data j
  { count := frames, state := { rb with data := data', write := w + frames } }

/-- Result of `readInterleaved`: the samples written to `dst`, the frame
count actually read, and the new buffer state. -/
structure ReadResult where
  out : ℕ → ℚ
  count : ℕ
  state : RingBuffer

/-- `readInterleaved(dst, frames)`: clamp to `availableToRead`, copy a
first contiguous segment from `(r & mask) * channels` and (on wrap) a
second segment from offset `0`, then publish `r + frames`.  Positions of
`dst` beyond the copied samples are left at `0`. -/
def readInterleaved (rb : RingBuffer) (frames : ℕ) : ReadResult :=
  let frames := min frames (availableToRead rb)
  let r := rb.read
  let first := min frames (rb.capacityFrames - (r &&& rb.mask))
  let base := (r &&& rb.mask) * rb.channels
  let out : ℕ → ℚ := fun j =>
    if j < first * rb.channels then rb.data (base + j)
    else if j < frames * rb.channels then rb.data (j - first * rb.channels)
    else 0
  { out := out, count := frames,
    state := { rb with read := r + frames } }

/-- `nextPow2(v)` for the `int32_t` argument values `init` can pass it
(`v ≥ 1`): decrement, smear the bits right by or-ing in the shifts by
1, 2, 4, 8, 16, increment, and clamp results below 2 up to 2.  The
increment is performed in 32-bit two's complement: when it reaches
`2^31` the `int32_t` wraps to `-2^31`, which the final clamp turns
into 2. -/
def nextPow2 (v : ℕ) : ℤ :=
  let u0 := v - 1
  let u1 := u0 ||| (u0 >>> 1)
  let u2 := u1 ||| (u1 >>> 2)
  let u3 := u2 ||| (u2 >>> 4)
  let u4 := u3 ||| (u3 >>> 8)
  let u5 := u4 ||| (u4 >>> 16)
  let w : ℤ := if u5 + 1 < 2 ^ 31 then (u5 : ℤ) + 1 else (u5 : ℤ) + 1 - 2 ^ 32
  if w < 2 then 2 else w

/-- `init(capacityFrames, channels)`: `false` (here `none`) for
non-positive arguments, otherwise allocate a zeroed buffer whose frame
capacity is `nextPow2(capacityFrames)` and reset both counters. -/
def init (capacityFrames channels : ℤ) : Option RingBuffer :=
  if capacityFrames ≤ 0 ∨ channels ≤ 0 then none
  else some
    { channels := channels.toNat
      capacityFrames := (nextPow2 capacityFrames.toNat).toNat
      data := fun _ => 0
      read := 0
      write := 0 }

end RingBuffer

/-- Smearing step: if `X` has bit `i` set exactly when `u` has some bit
in the window `[i, i+m)` set, then `X ||| X >>> m` widens the window to
`[i, i+2m)`. -/
theorem smear_step (u X m : ℕ)
    (hX : ∀ i, X.testBit i = true ↔ ∃ d, d < m ∧ u.testBit (i + d) = true) :
    ∀ i, (X ||| X >>> m).testBit i = true ↔
      ∃ d, d < 2 * m ∧ u.testBit (i + d) = true := by
  intro i
  rw [Nat.testBit_or, Nat.testBit_shiftRight, Bool.or_eq_true, hX, hX]
  constructor
  · rintro (⟨d, hd, hbit⟩ | ⟨d, hd, hbit⟩)
    · exact ⟨d, by omega, hbit⟩
    · exact ⟨m + d, by omega, by rwa [show i + (m + d) = m + i + d by omega]⟩
  · rintro ⟨d, hd, hbit⟩
    rcases Nat.lt_or_ge d m with h | h
    · exact Or.inl ⟨d, h, hbit⟩
    · exact Or.inr ⟨d - m, by omega, by rwa [show m + i + (d - m) = i + d by omega]⟩

/-- The most significant bit of a positive number is set. -/
theorem testBit_size_sub_one {u : ℕ} (hu : 0 < u) :
    u.testBit (u.size - 1) = true := by
  have h1 : u < 2 ^ u.size := Nat.lt_size_self u
  have hs : 0 < u.size := Nat.size_pos.mpr hu
  have h2 : ¬ u < 2 ^ (u.size - 1) := fun h =>
    absurd (Nat.size_le.mpr h) (by omega)
  have hdiv : u / 2 ^ (u.size - 1) = 1 := by
    have hle : 1 ≤ u / 2 ^ (u.size - 1) :=
      (Nat.one_le_div_iff (Nat.pos_pow_of_pos _ (by norm_num))).mpr (by omega)
    have hlt : u / 2 ^ (u.size - 1) < 2 := by
      apply Nat.div_lt_of_lt_mul
      calc u < 2 ^ u.size := h1
        _ = 2 ^ (u.size - 1) * 2 := by
            rw [← pow_succ]; congr 1; omega
    omega
  rw [Nat.testBit_to_div_mod, hdiv]
  decide

/-- For positive `v`, the bit length of `v - 1` is the ceiling
logarithm `⌈log₂ v⌉`, so `2 ^ size (v-1)` is the next power of two. -/
theorem clog_eq_size_sub_one (v : ℕ) (hv : 1 ≤ v) :
    Nat.clog 2 v = (v - 1).size := by
  apply le_antisymm
  · refine (Nat.le_pow_iff_clog_le one_lt_two).mp ?_
    have := Nat.lt_size_self (v - 1)
    omega
  · refine Nat.size_le.mpr ?_
    have := Nat.le_pow_clog one_lt_two v
    omega

/-- The spec's `next_pow2`: `capacity_frames` rounded up to the next
power of two, with minimum 2.  Modelled from the spec sentence
"rounds `capacity_frames` up to the next power of two (minimum 2)". -/
def specNextPow2 (v : ℕ) : ℕ := max 2 (2 ^ Nat.clog 2 v)

/-- On the domain `1 ≤ v ≤ 2^30` (where the `int32_t` increment cannot
overflow), the code's `nextPow2` computes exactly the spec's
next-power-of-two-with-minimum-2. -/
theorem nextPow2_spec (v : ℕ) (hv1 : 1 ≤ v) (hv2 : v ≤ 2 ^ 30) :
    RingBuffer.nextPow2 v = (specNextPow2 v : ℤ) := by
  simp only [RingBuffer.nextPow2]
  set u0 := v - 1 with hu0def
  have hu : u0 < 2 ^ 30 := by omega
  set u1 := u0 ||| u0 >>> 1 with hu1def
  set u2 := u1 ||| u1 >>> 2 with hu2def
  set u3 := u2 ||| u2 >>> 4 with hu3def
  set u4 := u3 ||| u3 >>> 8 with hu4def
  set u5 := u4 ||| u4 >>> 16 with hu5def
  have h0 : ∀ i, u0.testBit i = true ↔ ∃ d, d < 1 ∧ u0.testBit (i + d) = true := by
    intro i
    constructor
    · intro h; exact ⟨0, by omega, by simpa using h⟩
    · rintro ⟨d, hd, h⟩
      have hd0 : d = 0 := by omega
      simpa [hd0] using h
  have h1 := smear_step u0 u0 1 h0
  rw [← hu1def] at h1
  have h2 := smear_step u0 u1 2 h1
  rw [← hu2def] at h2
  have h4 := smear_step u0 u2 4 h2
  rw [← hu3def] at h4
  have h8 := smear_step u0 u3 8 h4
  rw [← hu4def] at h8
  have h16 := smear_step u0 u4 16 h8
  rw [← hu5def] at h16
  have hsize : u0.size ≤ 30 := Nat.size_le.mpr hu
  have hu5 : u5 = 2 ^ u0.size - 1 := by
    apply Nat.eq_of_testBit_eq
    intro i
    rw [Nat.testBit_two_pow_sub_one]
    by_cases hi : i < u0.size
    · have hu0pos : 0 < u0 := by
        rcases Nat.eq_zero_or_pos u0 with h | h
        · rw [h, Nat.size_zero] at hi; omega
        · exact h
      have hbit : u5.testBit i = true := by
        refine (h16 i).mpr ⟨u0.size - 1 - i, by omega, ?_⟩
        rw [show i + (u0.size - 1 - i) = u0.size - 1 by omega]
        exact testBit_size_sub_one hu0pos
      simp [hbit, hi]
    · have hbit : u5.testBit i = false := by
        cases h : u5.testBit i
        · rfl
        · exfalso
          obtain ⟨d, hd, hb2⟩ := (h16 i).mp h
          have hlt : u0 < 2 ^ (i + d) :=
            lt_of_lt_of_le (Nat.lt_size_self u0)
              (Nat.pow_le_pow_right (by norm_num) (by omega))
          rw [Nat.testBit_lt_two_pow hlt] at hb2
          exact Bool.false_ne_true hb2
      simp [hbit, hi]
  rw [hu5]
  have hp : 0 < 2 ^ u0.size := Nat.pos_pow_of_pos _ (by norm_num)
  have hple : 2 ^ u0.size ≤ 2 ^ 30 := Nat.pow_le_pow_right (by norm_num) hsize
  have hlt31 : 2 ^ u0.size - 1 + 1 < 2 ^ 31 := by
    have : (2:ℕ) ^ 30 < 2 ^ 31 := by norm_num
    omega
  rw [if_pos hlt31]
  have hcast : ((2 ^ u0.size - 1 : ℕ) : ℤ) + 1 = ((2 ^ u0.size : ℕ) : ℤ) := by
    rw [Nat.cast_sub (by omega : 1 ≤ 2 ^ u0.size)]
    push_cast
    ring
  rw [hcast]
  have hclog : Nat.clog 2 v = u0.size := clog_eq_size_sub_one v hv1
  unfold specNextPow2
  rw [hclog]
  by_cases hs : u0.size = 0
  · rw [hs]
    norm_num
  · have hge : (2:ℕ) ≤ 2 ^ u0.size := by
      calc (2:ℕ) = 2 ^ 1 := by norm_num
        _ ≤ 2 ^ u0.size := Nat.pow_le_pow_right (by norm_num) (by omega)
    rw [if_neg (by exact_mod_cast not_lt.mpr hge), max_eq_right hge]

/-- C9 counterexample: the claim "for every positive capacity_frames,
after init `availableToWrite()` is the capacity rounded up to the next
power of two" fails at `capacity_frames = 2^30 + 1`: the rounded-up
power of two is `2^31`, but the `int32_t` increment in `nextPow2`
overflows (wrapping to `-2^31`), the `< 2` clamp fires, and the ring is
initialized with capacity 2. -/
theorem ringBuffer_init_pow2_counterexample :
    Option.map RingBuffer.availableToWrite (RingBuffer.init (2 ^ 30 + 1) 1) =
      some 2 ∧
    specNextPow2 (2 ^ 30 + 1) = 2 ^ 31 ∧ (2 : ℕ) ≠ 2 ^ 31 := by
  refine ⟨by decide, ?_, by norm_num⟩
  unfold specNextPow2
  rw [clog_eq_size_sub_one _ (by norm_num)]
  rw [show (2 ^ 30 + 1 - 1 : ℕ) = 2 ^ 30 by norm_num, Nat.size_pow]
  norm_num

/-- C9 (amended): for `1 ≤ capacity_frames ≤ 2^30` and positive
`channels`, `init` succeeds and afterwards `availableToRead() = 0` and
`availableToWrite()` equals the capacity rounded up to the next power
of two (minimum 2); for non-positive `capacity_frames` or `channels`,
`init` fails. -/
theorem ringBuffer_init_spec (capacityFrames channels : ℤ)
    (h1 : 1 ≤ capacityFrames) (h2 : capacityFrames ≤ 2 ^ 30)
    (h3 : 1 ≤ channels) :
    (∃ rb, RingBuffer.init capacityFrames channels = some rb ∧
        rb.availableToRead = 0 ∧
        rb.availableToWrite = specNextPow2 capacityFrames.toNat) ∧
    ∀ c c' : ℤ, c ≤ 0 ∨ c' ≤ 0 → RingBuffer.init c c' = none := by
  constructor
  · unfold RingBuffer.init
    rw [if_neg (by omega : ¬ (capacityFrames ≤ 0 ∨ channels ≤ 0))]
    have hv1 : 1 ≤ capacityFrames.toNat := by omega
    have hv2 : capacityFrames.toNat ≤ 2 ^ 30 := by
      have : (2:ℤ) ^ 30 = ((2 ^ 30 : ℕ) : ℤ) := by norm_num
      omega
    refine ⟨_, rfl, rfl, ?_⟩
    simp [RingBuffer.availableToWrite, RingBuffer.availableToRead,
      nextPow2_spec _ hv1 hv2]
  · intro c c' h
    unfold RingBuffer.init
    rw [if_pos h]

/-- C9 witness: the amended init postcondition evaluated at
`capacity_frames = 3`, `channels = 2` (capacity rounds up to 4). -/
theorem ringBuffer_init_spec_witness :
    ((1:ℤ) ≤ 3 ∧ (3:ℤ) ≤ 2 ^ 30 ∧ (1:ℤ) ≤ 2) ∧
    ((∃ rb, RingBuffer.init 3 2 = some rb ∧
        rb.availableToRead = 0 ∧
        rb.availableToWrite = specNextPow2 (3:ℤ).toNat) ∧
     ∀ c c' : ℤ, c ≤ 0 ∨ c' ≤ 0 → RingBuffer.init c c' = none) :=
  ⟨⟨by norm_num, by norm_num, by norm_num⟩,
    ringBuffer_init_spec 3 2 (by norm_num) (by norm_num) (by norm_num)⟩

/-- C1: RingBuffer round-trip.  For every channel count ≥ 1, every
power-of-two capacity (as produced by `init`), every empty position
`read = write = p` (any position reachable while the ring is empty) and
every sequence `S` of `n ≤ capacity` interleaved frames, writing `S`
with `writeInterleaved` and then reading `n` frames with
`readInterleaved` accepts all `n` frames and returns exactly the samples
of `S`, including when the transfer wraps around the ring boundary. -/
theorem ringBuffer_round_trip (k ch p n : ℕ) (data S : ℕ → ℚ)
    (hch : 1 ≤ ch) (hn : n ≤ 2 ^ k) :
    (RingBuffer.writeInterleaved ⟨ch, 2 ^ k, data, p, p⟩ S n).count = n ∧
    ((RingBuffer.writeInterleaved ⟨ch, 2 ^ k, data, p, p⟩ S n).state.readInterleaved
        n).count = n ∧
    ∀ j, j < n * ch →
      ((RingBuffer.writeInterleaved ⟨ch, 2 ^ k, data, p, p⟩ S n).state.readInterleaved
          n).out j = S j := by
  have hcpos : 0 < 2 ^ k := Nat.pos_pow_of_pos k (by norm_num)
  have hb : p % 2 ^ k < 2 ^ k := Nat.mod_lt _ hcpos
  simp only [RingBuffer.writeInterleaved, RingBuffer.readInterleaved,
    RingBuffer.availableToRead, RingBuffer.availableToWrite, RingBuffer.mask,
    land_two_pow_sub_one, Nat.sub_self, Nat.sub_zero, Nat.add_sub_cancel_left,
    min_self, Nat.min_eq_left hn]
  refine ⟨trivial, trivial, ?_⟩
  intro j hj
  set c := 2 ^ k with hc
  set b := p % c with hbdef
  set f := min n (c - b) with hf
  have hfn : f ≤ n := min_le_left _ _
  have h1 : f * ch ≤ n * ch := Nat.mul_le_mul_right _ hfn
  have h2 : (n - f) * ch = n * ch - f * ch := Nat.sub_mul n f ch
  by_cases hjf : j < f * ch
  · -- data read from the first contiguous segment
    have hin : b * ch ≤ b * ch + j ∧ b * ch + j < b * ch + f * ch := by omega
    simp only [if_pos hjf, if_pos hin]
  · -- wrapped segment: the write's second memcpy landed at offset 0
    have hflt : f < n := by
      have hmul : f * ch < n * ch := by omega
      exact lt_of_mul_lt_mul_right hmul (Nat.zero_le ch)
    have hfeq : f = c - b := by omega
    have hsec : n - f ≤ b := by omega
    have hsecm : (n - f) * ch ≤ b * ch := Nat.mul_le_mul_right _ hsec
    have hnot : ¬ (b * ch ≤ j - f * ch ∧
        j - f * ch < b * ch + f * ch) := by omega
    have hlt2 : j - f * ch < (n - f) * ch := by omega
    simp only [if_neg hjf, if_pos hj, if_neg hnot, if_pos hlt2]
    congr 1
    omega

/-- C1 witness: the round-trip evaluated on a capacity-2 single-channel
ring at empty position `read = write = 1` with two frames, so both the
write and the read wrap around the ring boundary. -/
theorem ringBuffer_round_trip_witness :
    ((1:ℕ) ≤ 1 ∧ (2:ℕ) ≤ 2 ^ 1) ∧
    ((RingBuffer.writeInterleaved ⟨1, 2 ^ 1, fun _ => 0, 1, 1⟩
        (fun j => (j : ℚ)) 2).count = 2 ∧
     ((RingBuffer.writeInterleaved ⟨1, 2 ^ 1, fun _ => 0, 1, 1⟩
        (fun j => (j : ℚ)) 2).state.readInterleaved 2).count = 2 ∧
     ∀ j, j < 2 * 1 →
       ((RingBuffer.writeInterleaved ⟨1, 2 ^ 1, fun _ => 0, 1, 1⟩
          (fun j => (j : ℚ)) 2).state.readInterleaved 2).out j = (j : ℚ)) :=
  ⟨⟨by norm_num, by norm_num⟩,
    ringBuffer_round_trip 1 1 1 2 (fun _ => 0) (fun j => (j : ℚ))
      (by norm_num) (by norm_num)⟩

/-! ## Resampler3x (`Resampler3x.h`)

Fixed-ratio 3:1 / 1:3 resampler.  `mPrevSample` / `mHadPrev` are the
continuity state captured by the up-path; the down-path neither reads
nor writes them.  `int` parameters are modelled as `ℤ` (C integer
division truncates toward zero, i.e. `Int.tdiv`). -/

structure Resampler3x where
  prevSample : ℚ
  hadPrev : Bool

namespace Resampler3x

/-- `reset()`: clears the continuity state. -/
def reset (_ : Resampler3x) : Resampler3x := ⟨0, false⟩

/-- `processDown3(in, inFrames, out, outMaxFrames)`: averages each
complete group of three input samples; returns the produced count, the
output samples, and the (untouched) resampler state. -/
def processDown3 (st : Resampler3x) (input : ℤ → ℚ) (inFrames outMaxFrames : ℤ) :
    ℤ × List ℚ × Resampler3x :=
  let groups := Int.tdiv inFrames 3
  let produced := min groups outMaxFrames
  (produced,
   (List.range produced.toNat).map fun g : ℕ =>
     (input (3 * (g : ℤ)) + input (3 * (g : ℤ) + 1) + input (3 * (g : ℤ) + 2)) *
       (1 / 3),
   st)

/-- Loop body of `processUp3`: while `i < inFrames && outIdx + 3 <=
producedMax`, emit the triplet `x0, x0 + d, x0 + 2d` with `d = (x1 -
x0) / 3` (holding the last sample at the tail), advancing `i` by 1 and
`outIdx` by 3.  The loop runs at most `inFrames` times, which bounds
the structural fuel. -/
def up3Go (input : ℤ → ℚ) (inFrames producedMax : ℤ) :
    ℕ → ℤ → ℤ → List ℚ
  | 0, _, _ => []
  | fuel + 1, i, outIdx =>
    if i < inFrames ∧ outIdx + 3 ≤ producedMax then
      let x0 := input i
      let x1 := if i + 1 < inFrames then input (i + 1) else x0
      let d := (x1 - x0) * (1 / 3)
      x0 :: (x0 + d) :: (x0 + 2 * d) ::
        up3Go input inFrames producedMax fuel (i + 1) (outIdx + 3)
    else []

/-- `processUp3(in, inFrames, out, outMaxFrames)`: returns 0 for
non-positive input, otherwise emits linear-interpolation triplets while
a whole triplet still fits under `min(inFrames * 3, outMaxFrames)`,
then records the last input sample in `mPrevSample`. -/
def processUp3 (st : Resampler3x) (input : ℤ → ℚ) (inFrames outMaxFrames : ℤ) :
    ℤ × List ℚ × Resampler3x :=
  if inFrames ≤ 0 then (0, [], st)
  else
    let producedMax := min (inFrames * 3) outMaxFrames
    let out := up3Go input inFrames producedMax inFrames.toNat 0 0
    ((out.length : ℤ), out,
     { prevSample := input (inFrames - 1), hadPrev := true })

end Resampler3x

/-- The interpolation step of `processUp3` at input index `k`:
`(in[k+1] - in[k]) / 3`, holding the last sample at the tail
(`k = inFrames - 1`). -/
def up3Step (input : ℤ → ℚ) (N : ℤ) (k : ℕ) : ℚ :=
  ((if (k : ℤ) + 1 < N then input ((k : ℤ) + 1) else input k) - input k) * (1 / 3)

/-- The list of `m` interpolation triplets starting at input index `i`,
as produced by the `processUp3` loop. -/
def triplets (input : ℤ → ℚ) (N : ℤ) : ℕ → ℕ → List ℚ
  | 0, _ => []
  | m + 1, i =>
    input i :: (input i + up3Step input N i) ::
      (input i + 2 * up3Step input N i) :: triplets input N m (i + 1)

theorem triplets_length (input : ℤ → ℚ) (N : ℤ) :
    ∀ m i, (triplets input N m i).length = 3 * m := by
  intro m
  induction m with
  | zero => intro i; rfl
  | succ m ih =>
      intro i
      simp only [triplets, List.length_cons, ih]
      ring

theorem triplets_getD (input : ℤ → ℚ) (N : ℤ) :
    ∀ m i k, k < m →
      (triplets input N m i).getD (3 * k) 0 = input (i + k) ∧
      (triplets input N m i).getD (3 * k + 1) 0 =
        input (i + k) + up3Step input N (i + k) ∧
      (triplets input N m i).getD (3 * k + 2) 0 =
        input (i + k) + 2 * up3Step input N (i + k) := by
  intro m
  induction m with
  | zero => intro i k hk; omega
  | succ m ih =>
      intro i k hk
      cases k with
      | zero => simp [triplets]
      | succ k =>
          have e3 : 3 * (k + 1) + 2 = 3 * k + 2 + 1 + 1 + 1 := by ring
          have e2 : 3 * (k + 1) + 1 = 3 * k + 1 + 1 + 1 + 1 := by ring
          have e1 : 3 * (k + 1) = 3 * k + 1 + 1 + 1 := by ring
          rw [e3, e2, e1]
          simp only [triplets, List.getD_cons_succ]
          rw [show (i : ℤ) + ((k + 1 : ℕ) : ℤ) = ((i + 1 : ℕ) : ℤ) + (k : ℤ) by
                push_cast; ring,
              show i + (k + 1) = (i + 1) + k by omega]
          exact ih (i + 1) k (by omega)

/-- The `processUp3` loop, started at input index `i` with `outIdx =
3i` and enough fuel, emits exactly the triplets for the input indices
in `[i, min(inFrames, ⌊max(producedMax,0)/3⌋))`. -/
theorem up3Go_eq_triplets (input : ℤ → ℚ) (N pm : ℤ) :
    ∀ (fuel : ℕ) (i : ℕ), N ≤ (i : ℤ) + fuel →
      Resampler3x.up3Go input N pm fuel (i : ℤ) (3 * (i : ℤ)) =
        triplets input N (min N.toNat (pm.toNat / 3) - i) i := by
  intro fuel
  induction fuel with
  | zero =>
      intro i hi
      rw [show min N.toNat (pm.toNat / 3) - i = 0 by omega]
      rfl
  | succ fuel ih =>
      intro i hi
      have hiff : ((i : ℤ) < N ∧ 3 * (i : ℤ) + 3 ≤ pm) ↔
          i < min N.toNat (pm.toNat / 3) := by omega
      simp only [Resampler3x.up3Go]
      by_cases hc : i < min N.toNat (pm.toNat / 3)
      · rw [if_pos (hiff.mpr hc)]
        rw [show min N.toNat (pm.toNat / 3) - i =
              (min N.toNat (pm.toNat / 3) - (i + 1)) + 1 by omega]
        simp only [triplets]
        rw [show (i : ℤ) + 1 = ((i + 1 : ℕ) : ℤ) by push_cast; ring,
            show 3 * (i : ℤ) + 3 = 3 * ((i + 1 : ℕ) : ℤ) by push_cast; ring,
            ih (i + 1) (by push_cast; omega)]
        rfl
      · rw [if_neg (fun h => hc (hiff.mp h)),
            show min N.toNat (pm.toNat / 3) - i = 0 by omega]
        rfl

/-- C6 counterexample: the claim "the produced length is min(3N,
outMaxFrames)" fails at `N = 1`, `outMaxFrames = 2`: the loop guard
`outIdx + 3 <= producedMax` only emits whole triplets, so the call
produces 0 samples, not `min(3, 2) = 2`. -/
theorem resampler_up3_length_counterexample :
    (Resampler3x.processUp3 ⟨0, false⟩ (fun i => (i : ℚ)) 1 2).1 = 0 ∧
    min (3 * 1) 2 = (2 : ℤ) ∧ (0 : ℤ) ≠ 2 := by
  refine ⟨by decide, by decide, by decide⟩

/-- C6 (amended): for every input of length `N ≥ 1` and every
`outMaxFrames`, `processUp3` produces exactly `3 ·
min(N, ⌊max(outMaxFrames, 0) / 3⌋)` samples — `min(3N, outMaxFrames)`
rounded down to a whole number of triplets; for each emitted triplet
`k` the samples are `in[k]`, `in[k] + d`, `in[k] + 2d` with `d =
(in[k+1] − in[k]) / 3`, and at `k = N − 1` the step `d` is 0 (the last
sample is held).  The continuity state records the last input sample. -/
theorem resampler_up3_spec (st : Resampler3x) (input : ℤ → ℚ) (N outMax : ℤ)
    (hN : 1 ≤ N) :
    (st.processUp3 input N outMax).1 =
        3 * (min N.toNat (outMax.toNat / 3) : ℤ) ∧
    (st.processUp3 input N outMax).2.1.length =
        3 * min N.toNat (outMax.toNat / 3) ∧
    (∀ k : ℕ, k < min N.toNat (outMax.toNat / 3) →
      (st.processUp3 input N outMax).2.1.getD (3 * k) 0 = input k ∧
      (st.processUp3 input N outMax).2.1.getD (3 * k + 1) 0 =
        input k + up3Step input N k ∧
      (st.processUp3 input N outMax).2.1.getD (3 * k + 2) 0 =
        input k + 2 * up3Step input N k) ∧
    (∀ k : ℕ, (k : ℤ) = N - 1 → up3Step input N k = 0) ∧
    (st.processUp3 input N outMax).2.2 = ⟨input (N - 1), true⟩ := by
  have hout : Resampler3x.up3Go input N (min (N * 3) outMax) N.toNat 0 0 =
      triplets input N (min N.toNat (outMax.toNat / 3)) 0 := by
    have h := up3Go_eq_triplets input N (min (N * 3) outMax) N.toNat 0
      (by omega)
    rw [show ((0 : ℕ) : ℤ) = (0 : ℤ) by norm_num, mul_zero] at h
    rw [h]
    congr 1
    omega
  simp only [Resampler3x.processUp3, if_neg (by omega : ¬ N ≤ 0), hout]
  refine ⟨?_, ?_, ?_, ?_, trivial⟩
  · rw [triplets_length]; push_cast; ring
  · rw [triplets_length]
  · intro k hk
    have h := triplets_getD input N (min N.toNat (outMax.toNat / 3)) 0 k hk
    simpa using h
  · intro k hk
    unfold up3Step
    rw [if_neg (by omega)]
    ring

/-- C6 witness: the amended up-by-3 contract evaluated at `N = 2`,
`outMaxFrames = 100`. -/
theorem resampler_up3_spec_witness :
    (1 : ℤ) ≤ 2 ∧
    ((Resampler3x.processUp3 ⟨0, false⟩ (fun i => (i : ℚ)) 2 100).1 =
        3 * (min (2:ℤ).toNat ((100:ℤ).toNat / 3) : ℤ) ∧
     (Resampler3x.processUp3 ⟨0, false⟩ (fun i => (i : ℚ)) 2 100).2.1.length =
        3 * min (2:ℤ).toNat ((100:ℤ).toNat / 3) ∧
     (∀ k : ℕ, k < min (2:ℤ).toNat ((100:ℤ).toNat / 3) →
       (Resampler3x.processUp3 ⟨0, false⟩ (fun i => (i : ℚ)) 2 100).2.1.getD
          (3 * k) 0 = ((k : ℤ) : ℚ) ∧
       (Resampler3x.processUp3 ⟨0, false⟩ (fun i => (i : ℚ)) 2 100).2.1.getD
          (3 * k + 1) 0 = ((k : ℤ) : ℚ) + up3Step (fun i => (i : ℚ)) 2 k ∧
       (Resampler3x.processUp3 ⟨0, false⟩ (fun i => (i : ℚ)) 2 100).2.1.getD
          (3 * k + 2) 0 = ((k : ℤ) : ℚ) + 2 * up3Step (fun i => (i : ℚ)) 2 k) ∧
     (∀ k : ℕ, (k : ℤ) = 2 - 1 → up3Step (fun i => (i : ℚ)) 2 k = 0) ∧
     (Resampler3x.processUp3 ⟨0, false⟩ (fun i => (i : ℚ)) 2 100).2.2 =
        ⟨((2 : ℤ) - 1 : ℤ), true⟩) :=
  ⟨by norm_num,
    resampler_up3_spec ⟨0, false⟩ (fun i => (i : ℚ)) 2 100 (by norm_num)⟩

/-- Helper: the samples produced by `processDown3`. -/
theorem processDown3_getD (st : Resampler3x) (input : ℤ → ℚ)
    (n outMax : ℤ) (g : ℕ)
    (hg : (g : ℤ) < min (Int.tdiv n 3) outMax) :
    (st.processDown3 input n outMax).2.1.getD g 0 =
      (input (3 * g) + input (3 * g + 1) + input (3 * g + 2)) * (1 / 3) := by
  simp only [Resampler3x.processDown3]
  have hlen : g < (min (Int.tdiv n 3) outMax).toNat := by omega
  rw [List.getD_eq_getElem _ _ (by simpa using hlen)]
  simp

/-- C7: down-by-3 on a multiple of 3.  For every input whose frame
count `n ≥ 0` is a multiple of 3 with `n / 3 ≤ outMaxFrames`, the
produced count is `n / 3` and output sample `g` is exactly the mean
`(in[3g] + in[3g+1] + in[3g+2]) / 3`, for every group `g`. -/
theorem resampler_down3_mean (st : Resampler3x) (input : ℤ → ℚ)
    (n outMax : ℤ) (hn : 0 ≤ n) (h3 : 3 ∣ n) (hle : n / 3 ≤ outMax) :
    (st.processDown3 input n outMax).1 = n / 3 ∧
    ∀ g : ℕ, (g : ℤ) < n / 3 →
      (st.processDown3 input n outMax).2.1.getD g 0 =
        (input (3 * g) + input (3 * g + 1) + input (3 * g + 2)) / 3 := by
  have htd : Int.tdiv n 3 = n / 3 := Int.tdiv_eq_ediv hn (by norm_num)
  constructor
  · simp only [Resampler3x.processDown3, htd]
    omega
  · intro g hg
    rw [processDown3_getD st input n outMax g (by omega)]
    ring

/-- C7 witness: the down-by-3 mean evaluated at `n = 6`,
`outMaxFrames = 2`. -/
theorem resampler_down3_mean_witness :
    ((0:ℤ) ≤ 6 ∧ (3:ℤ) ∣ 6 ∧ (6:ℤ) / 3 ≤ 2) ∧
    ((Resampler3x.processDown3 ⟨0, false⟩ (fun i => (i : ℚ)) 6 2).1 = 6 / 3 ∧
     ∀ g : ℕ, (g : ℤ) < 6 / 3 →
       (Resampler3x.processDown3 ⟨0, false⟩ (fun i => (i : ℚ)) 6 2).2.1.getD g 0 =
         (((3 * (g:ℕ) : ℤ) : ℚ) + ((3 * (g:ℕ) + 1 : ℤ) : ℚ) +
           ((3 * (g:ℕ) + 2 : ℤ) : ℚ)) / 3) :=
  ⟨⟨by norm_num, by norm_num, by norm_num⟩,
    resampler_down3_mean ⟨0, false⟩ (fun i => (i : ℚ)) 6 2
      (by norm_num) (by norm_num) (by norm_num)⟩

/-- C10: down-by-3 on a frame count that is not a multiple of 3.  The
call produces exactly `min(⌊n/3⌋, outMaxFrames)` output samples, each
computed from a complete triplet only; the resampler state is returned
untouched, the result does not depend on the state at all, and the
trailing `n mod 3` input samples have no effect on the output. -/
theorem resampler_down3_partial (st st2 : Resampler3x) (input input2 : ℤ → ℚ)
    (n outMax : ℤ) (hn : 0 ≤ n) (hout : 0 ≤ outMax) (h3 : ¬ (3 : ℤ) ∣ n) :
    (st.processDown3 input n outMax).1 = min (n / 3) outMax ∧
    (st.processDown3 input n outMax).2.1.length = (min (n / 3) outMax).toNat ∧
    (∀ g : ℕ, (g : ℤ) < min (n / 3) outMax →
      (st.processDown3 input n outMax).2.1.getD g 0 =
        (input (3 * g) + input (3 * g + 1) + input (3 * g + 2)) * (1 / 3)) ∧
    (st.processDown3 input n outMax).2.2 = st ∧
    ((st2.processDown3 input n outMax).1 = (st.processDown3 input n outMax).1 ∧
     (st2.processDown3 input n outMax).2.1 =
        (st.processDown3 input n outMax).2.1 ∧
     (st2.processDown3 input n outMax).2.2 = st2) ∧
    ((∀ i : ℤ, 0 ≤ i → i < 3 * (n / 3) → input2 i = input i) →
      (st.processDown3 input2 n outMax).1 = (st.processDown3 input n outMax).1 ∧
      (st.processDown3 input2 n outMax).2.1 =
        (st.processDown3 input n outMax).2.1) := by
  have htd : Int.tdiv n 3 = n / 3 := Int.tdiv_eq_ediv hn (by norm_num)
  refine ⟨?_, ?_, ?_, rfl, ⟨?_, rfl, rfl⟩, ?_⟩
  · simp only [Resampler3x.processDown3, htd]
  · simp only [Resampler3x.processDown3, htd, List.length_map,
      List.length_range]
  · intro g hg
    exact processDown3_getD st input n outMax g (by omega)
  · simp only [Resampler3x.processDown3]
  · intro hagree
    refine ⟨rfl, ?_⟩
    simp only [Resampler3x.processDown3]
    apply List.map_congr_left
    intro g hg
    rw [List.mem_range] at hg
    have hgb : (g : ℤ) < min (n / 3) outMax := by omega
    have e0 : input2 (3 * g) = input (3 * g) :=
      hagree _ (by omega) (by omega)
    have e1 : input2 (3 * g + 1) = input (3 * g + 1) :=
      hagree _ (by omega) (by omega)
    have e2 : input2 (3 * g + 2) = input (3 * g + 2) :=
      hagree _ (by omega) (by omega)
    rw [e0, e1, e2]

/-- C10 witness: the partial-triplet contract evaluated at `n = 4`,
`outMaxFrames = 5`, with `input2` differing from `input` only at the
discarded trailing index 3. -/
theorem resampler_down3_partial_witness :
    ((0:ℤ) ≤ 4 ∧ (0:ℤ) ≤ 5 ∧ ¬ (3:ℤ) ∣ 4) ∧
    ((Resampler3x.processDown3 ⟨0, false⟩ (fun i => (i : ℚ)) 4 5).1 =
        min ((4:ℤ) / 3) 5 ∧
     (Resampler3x.processDown3 ⟨0, false⟩ (fun i => (i : ℚ)) 4 5).2.1.length =
        (min ((4:ℤ) / 3) 5).toNat ∧
     (∀ g : ℕ, (g : ℤ) < min ((4:ℤ) / 3) 5 →
       (Resampler3x.processDown3 ⟨0, false⟩ (fun i => (i : ℚ)) 4 5).2.1.getD g 0 =
         (((3 * (g:ℕ) : ℤ) : ℚ) + ((3 * (g:ℕ) + 1 : ℤ) : ℚ) +
           ((3 * (g:ℕ) + 2 : ℤ) : ℚ)) * (1 / 3)) ∧
     (Resampler3x.processDown3 ⟨0, false⟩ (fun i => (i : ℚ)) 4 5).2.2 =
        ⟨0, false⟩ ∧
     ((Resampler3x.processDown3 ⟨7, true⟩ (fun i => (i : ℚ)) 4 5).1 =
        (Resampler3x.processDown3 ⟨0, false⟩ (fun i => (i : ℚ)) 4 5).1 ∧
      (Resampler3x.processDown3 ⟨7, true⟩ (fun i => (i : ℚ)) 4 5).2.1 =
        (Resampler3x.processDown3 ⟨0, false⟩ (fun i => (i : ℚ)) 4 5).2.1 ∧
      (Resampler3x.processDown3 ⟨7, true⟩ (fun i => (i : ℚ)) 4 5).2.2 =
        ⟨7, true⟩) ∧
     ((∀ i : ℤ, 0 ≤ i → i < 3 * ((4:ℤ) / 3) →
          (fun i : ℤ => if i = 3 then (99 : ℚ) else (i : ℚ)) i = (i : ℚ)) →
       (Resampler3x.processDown3 ⟨0, false⟩
          (fun i : ℤ => if i = 3 then (99 : ℚ) else (i : ℚ)) 4 5).1 =
         (Resampler3x.processDown3 ⟨0, false⟩ (fun i => (i : ℚ)) 4 5).1 ∧
       (Resampler3x.processDown3 ⟨0, false⟩
          (fun i : ℤ => if i = 3 then (99 : ℚ) else (i : ℚ)) 4 5).2.1 =
         (Resampler3x.processDown3 ⟨0, false⟩ (fun i => (i : ℚ)) 4 5).2.1)) :=
  ⟨⟨by norm_num, by norm_num, by decide⟩,
    resampler_down3_partial ⟨0, false⟩ ⟨7, true⟩ (fun i => (i : ℚ))
      (fun i : ℤ => if i = 3 then (99 : ℚ) else (i : ℚ)) 4 5
      (by norm_num) (by norm_num) (by decide)⟩

/-! ## StftProcessor (`StftProcessor.h` / `StftProcessor.cpp`)

Streaming STFT/OLA engine with `NFFT = 512`, hop `H = 96`, analysis
frame 480 (32 leading zeros of padding).  The float trigonometry
(`cosf`/`sinf` and `M_PI`, used for the Hann window and FFT twiddle
factors) is transcendental and cannot be represented exactly in a
computable embedding, so it is abstracted as an oracle of exact
rational stand-ins; none of the claims proved below depend on the
numerical values it returns. -/

structure TrigOracle where
  cos : ℚ → ℚ
  sin : ℚ → ℚ
  pi : ℚ

/-- Complex numbers over the idealized sample field, as used by the
FFT scratch buffers (`std::complex<float>`). -/
def Cpx : Type := ℚ × ℚ

def cadd (x y : Cpx) : Cpx := (x.1 + y.1, x.2 + y.2)

def csub (x y : Cpx) : Cpx := (x.1 - y.1, x.2 - y.2)

def cmul (x y : Cpx) : Cpx := (x.1 * y.1 - x.2 * y.2, x.1 * y.2 + x.2 * y.1)

def cscale (c : ℚ) (x : Cpx) : Cpx := (c * x.1, c * x.2)

/-- Inner loop of the in-place bit-reversal index update:
`for (; j & bit; bit >>= 1) j ^= bit;` returning the final `j` and
`bit`. -/
def brInner (j bit : ℕ) : ℕ × ℕ :=
  if h : j &&& bit ≠ 0 then brInner (j ^^^ bit) (bit >>> 1) else (j, bit)
termination_by bit
decreasing_by
  have hb : bit ≠ 0 := by
    rintro rfl
    simp [Nat.and_zero] at h
  rw [Nat.shiftRight_one]
  exact Nat.div_lt_self (Nat.pos_of_ne_zero hb) one_lt_two

/-- One bit-reversal index update: run the inner loop starting at
`bit = n >> 1`, then `j ^= bit`. -/
def brStep (n j : ℕ) : ℕ :=
  let p := brInner j (n >>> 1)
  p.1 ^^^ p.2

/-- Swap two positions of an FFT scratch vector. -/
def swapF (a : ℕ → Cpx) (i j : ℕ) : ℕ → Cpx :=
  fun p => if p = i then a j else if p = j then a i else a p

/-- The bit-reversal permutation pass of `StftProcessor::fft`:
`for (i = 1; i < n; ++i) { update j; if (i < j) swap(a[i], a[j]); }`. -/
def bitReversePass (a : ℕ → Cpx) (n : ℕ) : ℕ → Cpx :=
  (((List.range (n - 1)).map (· + 1)).foldl
    (fun (s : (ℕ → Cpx) × ℕ) i =>
      let j := brStep n s.2
      (if i < j then swapF s.1 i j else s.1, j))
    (a, 0)).1

/-- The inner butterfly loop for one block at offset `i`:
`for k < half: u = a[i+k]; v = a[i+k+half]*w; a[i+k] = u+v;
a[i+k+half] = u-v; w *= wlen;`. -/
def butterflies (wlen : Cpx) (half i : ℕ) (a : ℕ → Cpx) : ℕ → Cpx :=
  ((List.range half).foldl
    (fun (s : (ℕ → Cpx) × Cpx) k =>
      let u := s.1 (i + k)
      let v := cmul (s.1 (i + k + half)) s.2
      (fun p =>
        if p = i + k then cadd u v
        else if p = i + k + half then csub u v
        else s.1 p,
       cmul s.2 wlen))
    (a, ((1 : ℚ), (0 : ℚ)))).1

/-- One Cooley–Tukey stage for block length `len`: twiddle
`wlen = (cos ang, sin ang)` with `ang = ±2π/len`, applied to every
block `i = 0, len, 2·len, …`. -/
def fftStage (O : TrigOracle) (inverse : Bool) (n len : ℕ) (a : ℕ → Cpx) :
    ℕ → Cpx :=
  let ang : ℚ := (if inverse then 2 else -2) * O.pi / (len : ℚ)
  let wlen : Cpx := (O.cos ang, O.sin ang)
  ((List.range (n / len)).map (· * len)).foldl
    (fun acc i => butterflies wlen (len >>> 1) i acc) a

/-- `StftProcessor::fft`: radix-2 iterative FFT — bit-reversal
permutation, then stages `len = 2, 4, …, n`, with a final `1/n` scale
for the inverse transform. -/
def fft (O : TrigOracle) (inverse : Bool) (n : ℕ) (a : ℕ → Cpx) : ℕ → Cpx :=
  let a1 := bitReversePass a n
  let a2 := (List.range (Nat.log2 n)).foldl
    (fun acc s => fftStage O inverse n (2 ^ (s + 1)) acc) a1
  if inverse then fun i => cscale (1 / (n : ℚ)) (a2 i) else a2

/-- `kEps = 1e-8f`: the OLA-normalization guard threshold. -/
def kEps : ℚ := 1 / 100000000

/-- `hann512(n, N) = 0.5 * (1 - cos(2π n / (N-1)))` — symmetric Hann. -/
def hann512 (O : TrigOracle) (n N : ℕ) : ℚ :=
  1 / 2 * (1 - O.cos (2 * O.pi * (n : ℚ) / ((N : ℚ) - 1)))

/-- State of `class StftProcessor`: Hann window (`kNFFT = 512`
entries), the 96-sample hop staging buffer with its fill level, the
384-sample overlap history, the OLA/normalization rings of capacity
`2^15 = 32768` with their masked write/read cursors and `avail` count,
and the three monotone `uint64_t` counters. -/
structure StftProcessor where
  win : ℕ → ℚ
  hopBuf : ℕ → ℚ
  hopFill : ℕ
  hist384 : ℕ → ℚ
  olaBuf : ℕ → ℚ
  normBuf : ℕ → ℚ
  olaWrite : ℕ
  olaRead : ℕ
  olaMask : ℕ
  avail : ℕ
  pushed : ℕ
  popped : ℕ
  hops : ℕ

namespace StftProcessor

/-- The constructor: Hann window of length 512, zeroed staging and
history buffers, OLA ring of capacity `1 << 15` with mask `cap - 1`,
all cursors and counters zero. -/
def mkInit (O : TrigOracle) : StftProcessor where
  win := fun i => hann512 O i 512
  hopBuf := fun _ => 0
  hopFill := 0
  hist384 := fun _ => 0
  olaBuf := fun _ => 0
  normBuf := fun _ => 0
  olaWrite := 0
  olaRead := 0
  olaMask := 2 ^ 15 - 1
  avail := 0
  pushed := 0
  popped := 0
  hops := 0

/-- One iteration of the `olaAdd` accumulation loop at index `i`:
`ola[(w+i) & mask] += block[i]` and `norm[(w+i) & mask] += win[i]²`. -/
def olaAddStep (w mask : ℕ) (win block : ℕ → ℚ) (s : StftProcessor) (i : ℕ) :
    StftProcessor :=
  let idx := (w + i) &&& mask
  { s with
    olaBuf := fun p => if p = idx then s.olaBuf p + block i else s.olaBuf p
    normBuf := fun p =>
      if p = idx then s.normBuf p + win i * win i else s.normBuf p }

/-- `olaAdd(block512)`: accumulate all 512 block samples into the OLA
and normalization rings, then advance the write cursor by the hop
`96`. -/
def olaAdd (st : StftProcessor) (block : ℕ → ℚ) : StftProcessor :=
  let st' := (List.range 512).foldl
    (olaAddStep st.olaWrite st.olaMask st.win block) st
  { st' with olaWrite := (st.olaWrite + 96) &&& st.olaMask }

/-- `processOneHop`: build the 512-sample analysis frame (32 zeros,
384 history samples, 96 new hop samples), window it, forward FFT,
identity spectral processing, inverse FFT, synthesis window, OLA-add;
then `avail += 96` and `hops += 1`. -/
def processOneHop (O : TrigOracle) (st : StftProcessor) : StftProcessor :=
  let time512 : ℕ → ℚ := fun i =>
    if i < 32 then 0
    else if i < 32 + 384 then st.hist384 (i - 32)
    else if i < 512 then st.hopBuf (i - (32 + 384))
    else 0
  let timeWin : ℕ → ℚ := fun i => time512 i * st.win i
  let fftIn : ℕ → Cpx := fun i => ((timeWin i : ℚ), (0 : ℚ))
  let fftOut := fft O false 512 fftIn
  -- identity spectral processing: Y = X
  let y := fft O true 512 fftOut
  let synth : ℕ → ℚ := fun i => (y i).1 * st.win i
  let st' := olaAdd st synth
  { st' with avail := st'.avail + 96, hops := st'.hops + 1 }

/-- `take = min(need, frames - idx)`: how many samples the current
loop iteration of `pushTimeDomain` copies into the staging buffer. -/
def pushTake (st : StftProcessor) (rem : List ℚ) : ℕ :=
  min (96 - st.hopFill) rem.length

/-- `std::copy_n(mono16 + idx, take, mHopBuf.begin() + mHopFill)`
followed by `mHopFill += take`. -/
def pushFill (st : StftProcessor) (rem : List ℚ) : StftProcessor :=
  { st with
    hopBuf := fun p =>
      if st.hopFill ≤ p ∧ p < st.hopFill + pushTake st rem then
        rem.getD (p - st.hopFill) 0
      else st.hopBuf p
    hopFill := st.hopFill + pushTake st rem }

/-- The hop trigger: when the staging buffer holds a full hop of 96
samples, run `processOneHop`, reset the fill level, and roll the
384-sample history (drop its first 96 samples, append the hop). -/
def pushTrigger (O : TrigOracle) (st1 : StftProcessor) : StftProcessor :=
  if st1.hopFill = 96 then
    let pr := processOneHop O st1
    { pr with
      hopFill := 0
      hist384 := fun i =>
        if i < 288 then pr.hist384 (i + 96)
        else if i < 384 then pr.hopBuf (i - 288)
        else pr.hist384 i }
  else st1

/-- The copy/trigger loop of `pushTimeDomain`: while samples remain,
copy `take = min(96 - hopFill, remaining)` samples into `hopBuf` and
fire the hop trigger.  Each iteration with a non-empty remainder
consumes at least one sample, so the remaining-sample count bounds the
iterations and serves as fuel. -/
def pushGo (O : TrigOracle) : ℕ → StftProcessor → List ℚ → StftProcessor
  | 0, st, _ => st
  | fuel + 1, st, rem =>
    if rem.isEmpty then st
    else pushGo O fuel (pushTrigger O (pushFill st rem))
      (rem.drop (pushTake st rem))

/-- `pushTimeDomain(mono16, frames)`: `pushed += frames`, then the
copy/trigger loop over the samples. -/
def pushTimeDomain (O : TrigOracle) (st : StftProcessor) (mono : List ℚ) :
    StftProcessor :=
  pushGo O mono.length { st with pushed := st.pushed + mono.length } mono

/-- The emission loop of `popTimeDomain` after `count` iterations:
the output samples written so far and the current OLA/normalization
rings.  Iteration `i` reads slot `(read + i) & mask`, emits
`ola/norm` when `norm > kEps` (else 0), and zeroes both slots. -/
def popLoop (ola0 norm0 : ℕ → ℚ) (r mask : ℕ) :
    ℕ → ((ℕ → ℚ) × (ℕ → ℚ) × (ℕ → ℚ))
  | 0 => (fun _ => 0, ola0, norm0)
  | k + 1 =>
    let p := popLoop ola0 norm0 r mask k
    let idx := (r + k) &&& mask
    let nv := p.2.2 idx
    (fun i => if i = k then (if nv > kEps then p.2.1 idx / nv else 0) else p.1 i,
     fun q => if q = idx then 0 else p.2.1 q,
     fun q => if q = idx then 0 else p.2.2 q)

/-- Result of `popTimeDomain`: the samples written to `out16`, the
returned count, and the new engine state. -/
structure PopResult where
  out : ℕ → ℚ
  ret : ℕ
  state : StftProcessor

/-- `popTimeDomain(out16, maxFrames)`: emit
`want = min(maxFrames, avail)` normalized samples, zero the consumed
ring slots, advance the masked read cursor, `avail -= want`,
`popped += want`, and return `want`. -/
def popTimeDomain (st : StftProcessor) (maxFrames : ℕ) : PopResult :=
  let want := min maxFrames st.avail
  let lp := popLoop st.olaBuf st.normBuf st.olaRead st.olaMask want
  { out := lp.1
    ret := want
    state := { st with
      olaBuf := lp.2.1
      normBuf := lp.2.2
      olaRead := (st.olaRead + want) &&& st.olaMask
      avail := st.avail - want
      popped := st.popped + want } }

end StftProcessor

/-- A call against the engine's public mutating interface. -/
inductive StftOp where
  | push (mono : List ℚ)
  | pop (maxFrames : ℕ)

/-- Apply one call to the engine state. -/
def stepOp (O : TrigOracle) (st : StftProcessor) : StftOp → StftProcessor
  | .push mono => st.pushTimeDomain O mono
  | .pop n => (st.popTimeDomain n).state

/-- The engine state after a sequence of calls on a freshly
constructed processor. -/
def runOps (O : TrigOracle) (ops : List StftOp) : StftProcessor :=
  ops.foldl (stepOp O) (StftProcessor.mkInit O)

namespace StftProcessor

theorem foldl_olaAddStep_hopFill (w m : ℕ) (win b : ℕ → ℚ) (l : List ℕ) :
    ∀ s : StftProcessor, (l.foldl (olaAddStep w m win b) s).hopFill = s.hopFill := by
  induction l with
  | nil => intro s; rfl
  | cons x xs ih => intro s; rw [List.foldl_cons, ih]; rfl

theorem olaAdd_hopFill (st : StftProcessor) (b : ℕ → ℚ) :
    (st.olaAdd b).hopFill = st.hopFill := by
  unfold olaAdd
  simp only [foldl_olaAddStep_hopFill]

theorem foldl_olaAddStep_pushed (w m : ℕ) (win b : ℕ → ℚ) (l : List ℕ) :
    ∀ s : StftProcessor, (l.foldl (olaAddStep w m win b) s).pushed = s.pushed := by
  induction l with
  | nil => intro s; rfl
  | cons x xs ih => intro s; rw [List.foldl_cons, ih]; rfl

theorem olaAdd_pushed (st : StftProcessor) (b : ℕ → ℚ) :
    (st.olaAdd b).pushed = st.pushed := by
  unfold olaAdd
  simp only [foldl_olaAddStep_pushed]

theorem foldl_olaAddStep_popped (w m : ℕ) (win b : ℕ → ℚ) (l : List ℕ) :
    ∀ s : StftProcessor, (l.foldl (olaAddStep w m win b) s).popped = s.popped := by
  induction l with
  | nil => intro s; rfl
  | cons x xs ih => intro s; rw [List.foldl_cons, ih]; rfl

theorem olaAdd_popped (st : StftProcessor) (b : ℕ → ℚ) :
    (st.olaAdd b).popped = st.popped := by
  unfold olaAdd
  simp only [foldl_olaAddStep_popped]

theorem foldl_olaAddStep_avail (w m : ℕ) (win b : ℕ → ℚ) (l : List ℕ) :
    ∀ s : StftProcessor, (l.foldl (olaAddStep w m win b) s).avail = s.avail := by
  induction l with
  | nil => intro s; rfl
  | cons x xs ih => intro s; rw [List.foldl_cons, ih]; rfl

theorem olaAdd_avail (st : StftProcessor) (b : ℕ → ℚ) :
    (st.olaAdd b).avail = st.avail := by
  unfold olaAdd
  simp only [foldl_olaAddStep_avail]

theorem foldl_olaAddStep_hops (w m : ℕ) (win b : ℕ → ℚ) (l : List ℕ) :
    ∀ s : StftProcessor, (l.foldl (olaAddStep w m win b) s).hops = s.hops := by
  induction l with
  | nil => intro s; rfl
  | cons x xs ih => intro s; rw [List.foldl_cons, ih]; rfl

theorem olaAdd_hops (st : StftProcessor) (b : ℕ → ℚ) :
    (st.olaAdd b).hops = st.hops := by
  unfold olaAdd
  simp only [foldl_olaAddStep_hops]

theorem foldl_olaAddStep_olaMask (w m : ℕ) (win b : ℕ → ℚ) (l : List ℕ) :
    ∀ s : StftProcessor, (l.foldl (olaAddStep w m win b) s).olaMask = s.olaMask := by
  induction l with
  | nil => intro s; rfl
  | cons x xs ih => intro s; rw [List.foldl_cons, ih]; rfl

theorem olaAdd_olaMask (st : StftProcessor) (b : ℕ → ℚ) :
    (st.olaAdd b).olaMask = st.olaMask := by
  unfold olaAdd
  simp only [foldl_olaAddStep_olaMask]

theorem processOneHop_hopFill (O : TrigOracle) (st : StftProcessor) :
    (st.processOneHop O).hopFill = st.hopFill := by
  simp only [processOneHop, olaAdd_hopFill]

theorem processOneHop_pushed (O : TrigOracle) (st : StftProcessor) :
    (st.processOneHop O).pushed = st.pushed := by
  simp only [processOneHop, olaAdd_pushed]

theorem processOneHop_popped (O : TrigOracle) (st : StftProcessor) :
    (st.processOneHop O).popped = st.popped := by
  simp only [processOneHop, olaAdd_popped]

theorem processOneHop_olaMask (O : TrigOracle) (st : StftProcessor) :
    (st.processOneHop O).olaMask = st.olaMask := by
  simp only [processOneHop, olaAdd_olaMask]

theorem processOneHop_avail (O : TrigOracle) (st : StftProcessor) :
    (st.processOneHop O).avail = st.avail + 96 := by
  simp only [processOneHop, olaAdd_avail]

theorem processOneHop_hops (O : TrigOracle) (st : StftProcessor) :
    (st.processOneHop O).hops = st.hops + 1 := by
  simp only [processOneHop, olaAdd_hops]

/-- Projections of the staging-copy step. -/
theorem pushFill_hopFill (st : StftProcessor) (rem : List ℚ) :
    (pushFill st rem).hopFill = st.hopFill + pushTake st rem := rfl

/-- When the staging buffer has filled to 96, the trigger runs
`processOneHop` (adding 96 to `avail` and 1 to `hops`), resets the
fill level and leaves the counters otherwise unchanged. -/
theorem pushTrigger_of_full (O : TrigOracle) (st1 : StftProcessor)
    (h : st1.hopFill = 96) :
    (pushTrigger O st1).hopFill = 0 ∧
    (pushTrigger O st1).hops = st1.hops + 1 ∧
    (pushTrigger O st1).avail = st1.avail + 96 ∧
    (pushTrigger O st1).pushed = st1.pushed ∧
    (pushTrigger O st1).popped = st1.popped ∧
    (pushTrigger O st1).olaMask = st1.olaMask := by
  unfold pushTrigger
  rw [if_pos h]
  refine ⟨rfl, ?_, ?_, ?_, ?_, ?_⟩ <;>
    simp only [processOneHop_hops, processOneHop_avail,
      processOneHop_pushed, processOneHop_popped, processOneHop_olaMask]

theorem pushTrigger_of_not_full (O : TrigOracle) (st1 : StftProcessor)
    (h : ¬ st1.hopFill = 96) : pushTrigger O st1 = st1 := by
  unfold pushTrigger
  rw [if_neg h]

/-- Counter behaviour of the `pushTimeDomain` copy/trigger loop: with
enough fuel and a staging fill below 96, it completes
`(hopFill + remaining) / 96` hops, each adding exactly 96 to `avail`,
and leaves `(hopFill + remaining) % 96` staged samples. -/
theorem pushGo_spec (O : TrigOracle) :
    ∀ (fuel : ℕ) (rem : List ℚ) (st : StftProcessor),
      rem.length ≤ fuel → st.hopFill < 96 →
      (pushGo O fuel st rem).hopFill = (st.hopFill + rem.length) % 96 ∧
      (pushGo O fuel st rem).hops = st.hops + (st.hopFill + rem.length) / 96 ∧
      (pushGo O fuel st rem).avail =
        st.avail + 96 * ((st.hopFill + rem.length) / 96) ∧
      (pushGo O fuel st rem).pushed = st.pushed ∧
      (pushGo O fuel st rem).popped = st.popped ∧
      (pushGo O fuel st rem).olaMask = st.olaMask := by
  intro fuel
  induction fuel with
  | zero =>
      intro rem st hlen hf
      have hnil : rem = [] := List.eq_nil_of_length_eq_zero (by omega)
      subst hnil
      refine ⟨?_, ?_, ?_, ?_, ?_, ?_⟩ <;>
        simp only [pushGo, List.length_nil] <;> omega
  | succ fuel ih =>
      intro rem st hlen hf
      by_cases hnil : rem = []
      · subst hnil
        have h0 : pushGo O (fuel + 1) st [] = st := by
          simp [pushGo]
        rw [h0]
        refine ⟨?_, ?_, ?_, ?_, ?_, ?_⟩ <;>
          simp only [List.length_nil] <;> omega
      · have hlenpos : 0 < rem.length := List.length_pos.mpr hnil
        have hstep : pushGo O (fuel + 1) st rem =
            pushGo O fuel (pushTrigger O (pushFill st rem))
              (rem.drop (pushTake st rem)) := by
          simp only [pushGo]
          rw [if_neg (by simp [List.isEmpty_iff, hnil])]
        rw [hstep]
        set take := pushTake st rem with htakedef
        set st1 := pushFill st rem with hst1def
        simp only [pushTake] at htakedef
        have f1 : st1.hopFill = st.hopFill + take := rfl
        have f2 : st1.hops = st.hops := rfl
        have f3 : st1.avail = st.avail := rfl
        have f4 : st1.pushed = st.pushed := rfl
        have f5 : st1.popped = st.popped := rfl
        have f6 : st1.olaMask = st.olaMask := rfl
        have htake1 : 1 ≤ take := by omega
        have htakele : take ≤ 96 - st.hopFill := by omega
        have htakerem : take ≤ rem.length := by omega
        have hdrop : (rem.drop take).length = rem.length - take := by
          simp [List.length_drop]
        by_cases hfull : st.hopFill + take = 96
        · obtain ⟨t1, t2, t3, t4, t5, t6⟩ :=
            pushTrigger_of_full O st1 (by omega)
          obtain ⟨e1, e2, e3, e4, e5, e6⟩ :=
            ih (rem.drop take) (pushTrigger O st1) (by omega) (by omega)
          refine ⟨?_, ?_, ?_, ?_, ?_, ?_⟩
          · rw [e1, t1, hdrop]; omega
          · rw [e2, t2, t1, f2, hdrop]; omega
          · rw [e3, t3, t1, f3, hdrop]; omega
          · rw [e4, t4, f4]
          · rw [e5, t5, f5]
          · rw [e6, t6, f6]
        · rw [pushTrigger_of_not_full O st1 (by omega)]
          have htakeall : take = rem.length := by omega
          have hdropnil : rem.drop take = [] := by
            rw [htakeall]; exact List.drop_length rem
          rw [hdropnil]
          obtain ⟨e1, e2, e3, e4, e5, e6⟩ := ih [] st1 (by simp) (by omega)
          simp only [List.length_nil] at e1 e2 e3
          refine ⟨?_, ?_, ?_, ?_, ?_, ?_⟩
          · rw [e1, f1]; omega
          · rw [e2, f2, f1]; omega
          · rw [e3, f3, f1]; omega
          · rw [e4, f4]
          · rw [e5, f5]
          · rw [e6, f6]

end StftProcessor

/-- The internal consistency invariant of the engine, maintained by
every `pushTimeDomain`/`popTimeDomain` call from construction on: the
staging fill is the pushed count mod 96, a hop has been processed for
every full 96 pushed samples, and every processed hop has produced
exactly 96 output samples, of which `popped` have been consumed and
`avail` are still pending. -/
def StftInv (st : StftProcessor) : Prop :=
  st.hopFill = st.pushed % 96 ∧
  st.hops = st.pushed / 96 ∧
  st.avail + st.popped = 96 * st.hops

theorem stftInv_mkInit (O : TrigOracle) : StftInv (StftProcessor.mkInit O) := by
  refine ⟨rfl, ?_, ?_⟩ <;> simp [StftProcessor.mkInit]

/-- Full counter behaviour of one `pushTimeDomain` call from a
consistent state. -/
theorem pushTimeDomain_spec (O : TrigOracle) (st : StftProcessor)
    (mono : List ℚ) (hInv : StftInv st) :
    StftInv (st.pushTimeDomain O mono) ∧
    (st.pushTimeDomain O mono).pushed = st.pushed + mono.length ∧
    (st.pushTimeDomain O mono).popped = st.popped ∧
    (st.pushTimeDomain O mono).hops = (st.pushed + mono.length) / 96 ∧
    (st.pushTimeDomain O mono).avail =
      st.avail + 96 * ((st.pushed + mono.length) / 96 - st.pushed / 96) ∧
    (st.pushTimeDomain O mono).olaMask = st.olaMask := by
  obtain ⟨h1, h2, h3⟩ := hInv
  unfold StftProcessor.pushTimeDomain
  obtain ⟨e1, e2, e3, e4, e5, e6⟩ :=
    StftProcessor.pushGo_spec O mono.length mono
      { st with pushed := st.pushed + mono.length } (le_refl _) (by simp; omega)
  refine ⟨⟨?_, ?_, ?_⟩, ?_, ?_, ?_, ?_, ?_⟩
  · rw [e1, e4]; simp; omega
  · rw [e2, e4]; simp; omega
  · rw [e3, e5, e2]; simp; omega
  · rw [e4]
  · rw [e5]
  · rw [e2]; simp; omega
  · rw [e3]; simp; omega
  · rw [e6]

/-- Counter behaviour of one `popTimeDomain` call (any state): it
returns `min(maxFrames, avail)`, moves that many samples from `avail`
to `popped`, and leaves the push-side state alone. -/
theorem popTimeDomain_spec (st : StftProcessor) (n : ℕ) :
    (st.popTimeDomain n).ret = min n st.avail ∧
    (st.popTimeDomain n).state.avail = st.avail - min n st.avail ∧
    (st.popTimeDomain n).state.popped = st.popped + min n st.avail ∧
    (st.popTimeDomain n).state.pushed = st.pushed ∧
    (st.popTimeDomain n).state.hops = st.hops ∧
    (st.popTimeDomain n).state.hopFill = st.hopFill ∧
    (st.popTimeDomain n).state.olaMask = st.olaMask :=
  ⟨rfl, rfl, rfl, rfl, rfl, rfl, rfl⟩

theorem stftInv_stepOp (O : TrigOracle) (st : StftProcessor) (op : StftOp)
    (h : StftInv st) : StftInv (stepOp O st op) := by
  cases op with
  | push mono => exact (pushTimeDomain_spec O st mono h).1
  | pop n =>
      obtain ⟨h1, h2, h3⟩ := h
      obtain ⟨_, p2, p3, p4, p5, p6, _⟩ := popTimeDomain_spec st n
      rw [show stepOp O st (StftOp.pop n) = (st.popTimeDomain n).state from rfl]
      exact ⟨by rw [p6, p4, h1], by rw [p5, p4, h2],
        by rw [p2, p3, p5]; omega⟩

/-- Every state reachable from a fresh engine satisfies the
consistency invariant. -/
theorem stftInv_runOps (O : TrigOracle) (ops : List StftOp) :
    StftInv (runOps O ops) := by
  unfold runOps
  have gen : ∀ (l : List StftOp) (s : StftProcessor),
      StftInv s → StftInv (l.foldl (stepOp O) s) := by
    intro l
    induction l with
    | nil => intro s h; exact h
    | cons x xs ih =>
        intro s h
        rw [List.foldl_cons]
        exact ih _ (stftInv_stepOp O s x h)
  exact gen ops _ (stftInv_mkInit O)

/-- C4: STFT counter invariant.  For every sequence of
`pushTimeDomain`/`popTimeDomain` calls on a fresh engine,
`hopsProcessed` equals `⌊framesPushed / 96⌋` (the cumulative pushed
samples divided by the hop), `framesPopped ≤ framesPushed`, and each
further call leaves all three counters non-decreasing. -/
theorem stft_counter_invariant (O : TrigOracle) (ops : List StftOp) :
    (runOps O ops).hops = (runOps O ops).pushed / 96 ∧
    (runOps O ops).popped ≤ (runOps O ops).pushed ∧
    ∀ op : StftOp,
      (runOps O ops).pushed ≤ (runOps O (ops ++ [op])).pushed ∧
      (runOps O ops).popped ≤ (runOps O (ops ++ [op])).popped ∧
      (runOps O ops).hops ≤ (runOps O (ops ++ [op])).hops := by
  obtain ⟨h1, h2, h3⟩ := stftInv_runOps O ops
  refine ⟨h2, by omega, ?_⟩
  intro op
  have hrun : runOps O (ops ++ [op]) = stepOp O (runOps O ops) op := by
    unfold runOps
    rw [List.foldl_append]
    rfl
  rw [hrun]
  cases op with
  | push mono =>
      obtain ⟨_, e2, e3, e4, _, _⟩ :=
        pushTimeDomain_spec O (runOps O ops) mono (stftInv_runOps O ops)
      refine ⟨?_, ?_, ?_⟩
      · rw [show stepOp O (runOps O ops) (.push mono) =
            (runOps O ops).pushTimeDomain O mono from rfl, e2]
        omega
      · rw [show stepOp O (runOps O ops) (.push mono) =
            (runOps O ops).pushTimeDomain O mono from rfl, e3]
      · rw [show stepOp O (runOps O ops) (.push mono) =
            (runOps O ops).pushTimeDomain O mono from rfl, e4]
        omega
  | pop n =>
      obtain ⟨_, p2, p3, p4, p5, _, _⟩ := popTimeDomain_spec (runOps O ops) n
      exact ⟨le_of_eq p4.symm, by rw [show stepOp O (runOps O ops) (.pop n) =
          ((runOps O ops).popTimeDomain n).state from rfl, p3]; omega,
        le_of_eq p5.symm⟩

/-- The return values of iterating `popTimeDomain(out, 96)` `k`
times. -/
def popReturns (st : StftProcessor) : ℕ → List ℕ
  | 0 => []
  | k + 1 =>
    (st.popTimeDomain 96).ret ::
      popReturns (st.popTimeDomain 96).state k

/-- While at least `96·k` samples are available, `k` successive
`popTimeDomain(out, 96)` calls each return exactly 96. -/
theorem popReturns_all96 :
    ∀ (k : ℕ) (st : StftProcessor), 96 * k ≤ st.avail →
      popReturns st k = List.replicate k 96 := by
  intro k
  induction k with
  | zero => intro st _; rfl
  | succ k ih =>
      intro st h
      obtain ⟨p1, p2, _, _, _, _, _⟩ := popTimeDomain_spec st 96
      have hmin : min 96 st.avail = 96 := by omega
      rw [List.replicate_succ]
      simp only [popReturns]
      rw [p1, hmin, ih _ (by rw [p2, hmin]; omega)]

/-- C2: STFT per-hop output quantum.  For every reachable engine state
and every further pushed sample sequence `L`: the push advances the
pushed counter by `|L|`; a hop completes exactly each time the
cumulative pushed count crosses a multiple of 96
(`hops = ⌊pushed/96⌋` before and after); each completed hop makes
exactly 96 new output samples available
(`avail` grows by exactly `96 · (new hops)`); and a
`popTimeDomain(out, 96)` issued after each new hop returns exactly
96. -/
theorem stft_hop_quantum (O : TrigOracle) (ops : List StftOp) (L : List ℚ) :
    ((runOps O ops).pushTimeDomain O L).pushed = (runOps O ops).pushed + L.length ∧
    (runOps O ops).hops = (runOps O ops).pushed / 96 ∧
    ((runOps O ops).pushTimeDomain O L).hops =
      ((runOps O ops).pushed + L.length) / 96 ∧
    ((runOps O ops).pushTimeDomain O L).avail =
      (runOps O ops).avail +
        96 * (((runOps O ops).pushTimeDomain O L).hops - (runOps O ops).hops) ∧
    popReturns ((runOps O ops).pushTimeDomain O L)
        (((runOps O ops).pushTimeDomain O L).hops - (runOps O ops).hops) =
      List.replicate
        (((runOps O ops).pushTimeDomain O L).hops - (runOps O ops).hops) 96 := by
  have hInv := stftInv_runOps O ops
  obtain ⟨h1, h2, h3⟩ := hInv
  obtain ⟨_, e2, e3, e4, e5, _⟩ :=
    pushTimeDomain_spec O (runOps O ops) L (stftInv_runOps O ops)
  have hdiv : (runOps O ops).pushed / 96 ≤
      ((runOps O ops).pushed + L.length) / 96 :=
    Nat.div_le_div_right (by omega)
  refine ⟨e2, h2, e4, ?_, ?_⟩
  · rw [e5, e4, h2]
  · apply popReturns_all96
    rw [e5, e4, h2]
    omega

/-- Characterization of the `popTimeDomain` emission loop over the
power-of-two ring (mask `2^15 - 1`): as long as one call consumes at
most the ring capacity `2^15`, the consumed slots are pairwise
distinct, so every emitted sample reads the pre-call ring values
— `ola/norm` under the `norm > kEps` guard, else 0 — and both slots of
every consumed index are zero afterwards. -/
theorem popLoop_spec (ola norm : ℕ → ℚ) (r : ℕ) :
    ∀ want : ℕ, want ≤ 2 ^ 15 →
      (∀ i, i < want →
        (StftProcessor.popLoop ola norm r (2 ^ 15 - 1) want).1 i =
          (if norm ((r + i) &&& (2 ^ 15 - 1)) > kEps
           then ola ((r + i) &&& (2 ^ 15 - 1)) /
             norm ((r + i) &&& (2 ^ 15 - 1))
           else 0)) ∧
      (∀ q, (∃ i, i < want ∧ q = (r + i) &&& (2 ^ 15 - 1)) →
        (StftProcessor.popLoop ola norm r (2 ^ 15 - 1) want).2.1 q = 0 ∧
        (StftProcessor.popLoop ola norm r (2 ^ 15 - 1) want).2.2 q = 0) ∧
      (∀ q, (¬ ∃ i, i < want ∧ q = (r + i) &&& (2 ^ 15 - 1)) →
        (StftProcessor.popLoop ola norm r (2 ^ 15 - 1) want).2.1 q = ola q ∧
        (StftProcessor.popLoop ola norm r (2 ^ 15 - 1) want).2.2 q = norm q) := by
  intro want
  induction want with
  | zero =>
      intro _
      refine ⟨fun i hi => by omega, fun q hq => by omega, fun q hq => ⟨rfl, rfl⟩⟩
  | succ want ih =>
      intro hw
      obtain ⟨ih1, ih2, ih3⟩ := ih (by omega)
      have hdistinct : ∀ i, i < want →
          (r + i) &&& (2 ^ 15 - 1) ≠ (r + want) &&& (2 ^ 15 - 1) := by
        intro i hi
        rw [land_two_pow_sub_one, land_two_pow_sub_one]
        omega
      have hfresh : ¬ ∃ i, i < want ∧
          (r + want) &&& (2 ^ 15 - 1) = (r + i) &&& (2 ^ 15 - 1) := by
        rintro ⟨i, hi, heq2⟩
        exact hdistinct i hi heq2.symm
      obtain ⟨hola, hnorm⟩ := ih3 _ hfresh
      refine ⟨?_, ?_, ?_⟩
      · intro i hi
        simp only [StftProcessor.popLoop]
        by_cases hcase : i = want
        · subst hcase
          rw [if_pos rfl, hnorm, hola]
        · rw [if_neg hcase]
          exact ih1 i (by omega)
      · rintro q ⟨i, hi, hq⟩
        simp only [StftProcessor.popLoop]
        by_cases hcase : q = (r + want) &&& (2 ^ 15 - 1)
        · rw [if_pos hcase, if_pos hcase]
          exact ⟨rfl, rfl⟩
        · rw [if_neg hcase, if_neg hcase]
          have hiw : i < want := by
            rcases Nat.lt_or_ge i want with h | h
            · exact h
            · exfalso
              have : i = want := by omega
              subst this
              exact hcase hq
          exact ih2 q ⟨i, hiw, hq⟩
      · rintro q hq
        simp only [StftProcessor.popLoop]
        have hq1 : q ≠ (r + want) &&& (2 ^ 15 - 1) := by
          intro h
          exact hq ⟨want, by omega, h⟩
        rw [if_neg hq1, if_neg hq1]
        apply ih3
        rintro ⟨i, hi, hq2⟩
        exact hq ⟨i, by omega, hq2⟩

/-- C5: OLA normalization protection.  For every engine state whose
ring mask is the constructed `2^15 - 1` and every `popTimeDomain`
call that consumes at most the ring capacity (always the case while
the consumer drains the OLA ring as specified), each emitted sample
`i < want = min(maxFrames, avail)` equals
`ola_ring[idx] / norm_ring[idx]` when `norm_ring[idx] > ε`
(`ε = 1e-8`) and 0 otherwise, where `idx = (olaRead + i) & mask`; both
ring slots of every consumed index are zeroed after emission.  In this
exact-arithmetic semantics the guard `norm > ε > 0` makes every
division well-defined, so no emitted sample is NaN or Inf. -/
theorem stft_pop_normalization (st : StftProcessor) (n : ℕ)
    (hmask : st.olaMask = 2 ^ 15 - 1) (hn : min n st.avail ≤ 2 ^ 15) :
    (st.popTimeDomain n).ret = min n st.avail ∧
    (∀ i, i < min n st.avail →
      (st.popTimeDomain n).out i =
        (if st.normBuf ((st.olaRead + i) &&& st.olaMask) > kEps
         then st.olaBuf ((st.olaRead + i) &&& st.olaMask) /
           st.normBuf ((st.olaRead + i) &&& st.olaMask)
         else 0)) ∧
    (∀ i, i < min n st.avail →
      (st.popTimeDomain n).state.olaBuf ((st.olaRead + i) &&& st.olaMask) = 0 ∧
      (st.popTimeDomain n).state.normBuf ((st.olaRead + i) &&& st.olaMask) = 0) := by
  obtain ⟨l1, l2, l3⟩ :=
    popLoop_spec st.olaBuf st.normBuf st.olaRead (min n st.avail) hn
  have hout : (st.popTimeDomain n).out =
      (StftProcessor.popLoop st.olaBuf st.normBuf st.olaRead st.olaMask
        (min n st.avail)).1 := rfl
  have hola : (st.popTimeDomain n).state.olaBuf =
      (StftProcessor.popLoop st.olaBuf st.normBuf st.olaRead st.olaMask
        (min n st.avail)).2.1 := rfl
  have hnorm : (st.popTimeDomain n).state.normBuf =
      (StftProcessor.popLoop st.olaBuf st.normBuf st.olaRead st.olaMask
        (min n st.avail)).2.2 := rfl
  refine ⟨rfl, ?_, ?_⟩
  · intro i hi
    rw [hout, hmask]
    exact l1 i hi
  · intro i hi
    rw [hola, hnorm, hmask]
    exact l2 _ ⟨i, hi, rfl⟩

/-- C5 witness: the pop contract applied to a freshly constructed
engine (trivial trigonometric oracle) with `maxFrames = 5`. -/
theorem stft_pop_normalization_witness :
    ((StftProcessor.mkInit ⟨fun _ => 0, fun _ => 0, 0⟩).olaMask = 2 ^ 15 - 1 ∧
     min 5 (StftProcessor.mkInit ⟨fun _ => 0, fun _ => 0, 0⟩).avail ≤ 2 ^ 15) ∧
    (((StftProcessor.mkInit ⟨fun _ => 0, fun _ => 0, 0⟩).popTimeDomain 5).ret =
        min 5 (StftProcessor.mkInit ⟨fun _ => 0, fun _ => 0, 0⟩).avail ∧
     (∀ i, i < min 5 (StftProcessor.mkInit ⟨fun _ => 0, fun _ => 0, 0⟩).avail →
       ((StftProcessor.mkInit ⟨fun _ => 0, fun _ => 0, 0⟩).popTimeDomain 5).out i =
         (if (StftProcessor.mkInit ⟨fun _ => 0, fun _ => 0, 0⟩).normBuf
              (((StftProcessor.mkInit ⟨fun _ => 0, fun _ => 0, 0⟩).olaRead + i) &&&
                (StftProcessor.mkInit ⟨fun _ => 0, fun _ => 0, 0⟩).olaMask) > kEps
          then (StftProcessor.mkInit ⟨fun _ => 0, fun _ => 0, 0⟩).olaBuf
              (((StftProcessor.mkInit ⟨fun _ => 0, fun _ => 0, 0⟩).olaRead + i) &&&
                (StftProcessor.mkInit ⟨fun _ => 0, fun _ => 0, 0⟩).olaMask) /
            (StftProcessor.mkInit ⟨fun _ => 0, fun _ => 0, 0⟩).normBuf
              (((StftProcessor.mkInit ⟨fun _ => 0, fun _ => 0, 0⟩).olaRead + i) &&&
                (StftProcessor.mkInit ⟨fun _ => 0, fun _ => 0, 0⟩).olaMask)
          else 0)) ∧
     (∀ i, i < min 5 (StftProcessor.mkInit ⟨fun _ => 0, fun _ => 0, 0⟩).avail →
       ((StftProcessor.mkInit ⟨fun _ => 0, fun _ => 0, 0⟩).popTimeDomain
           5).state.olaBuf
         (((StftProcessor.mkInit ⟨fun _ => 0, fun _ => 0, 0⟩).olaRead + i) &&&
           (StftProcessor.mkInit ⟨fun _ => 0, fun _ => 0, 0⟩).olaMask) = 0 ∧
       ((StftProcessor.mkInit ⟨fun _ => 0, fun _ => 0, 0⟩).popTimeDomain
           5).state.normBuf
         (((StftProcessor.mkInit ⟨fun _ => 0, fun _ => 0, 0⟩).olaRead + i) &&&
           (StftProcessor.mkInit ⟨fun _ => 0, fun _ => 0, 0⟩).olaMask) = 0)) :=
  ⟨⟨rfl, by norm_num⟩,
    stft_pop_normalization (StftProcessor.mkInit ⟨fun _ => 0, fun _ => 0, 0⟩) 5
      rfl (by norm_num)⟩

/-! ## FullDuplexEngine::pullTo (`FullDuplexEngine.cpp`)

The playback-callback side of the engine: the output ring
(`mOutRing`, stereo interleaved — the channel count is taken from the
ring, which `start()` initializes with the output stream's channel
count), the `mUnderflows` diagnostic counter (`int64_t`, modelled as
`ℤ`), and the warm-up clock.  Real time cannot live in the embedding,
so the only fact `pullTo` reads from the clock — the elapsed
nanoseconds since `start()` recorded `mStartTime` — is passed as an
argument; `warming` is its comparison against 300 ms exactly as in
the code. -/

/-- The read loop of `pullTo`: `while (total < numFrames) { got =
readInterleaved(out + total*ch, numFrames - total); if (got <= 0)
break; total += got; }`.  Each non-final iteration reads at least one
frame, so `numFrames` bounds the iteration count and serves as fuel. -/
def pullToGo : ℕ → RingBuffer → (ℕ → ℚ) → ℕ → ℕ →
    RingBuffer × (ℕ → ℚ) × ℕ
  | 0, ring, out, _, total => (ring, out, total)
  | fuel + 1, ring, out, numFrames, total =>
    if total < numFrames then
      let r := ring.readInterleaved (numFrames - total)
      if r.count = 0 then (r.state, out, total)
      else
        let out' := fun j =>
          if total * ring.channels ≤ j ∧
              j < (total + r.count) * ring.channels then
            r.out (j - total * ring.channels)
          else out j
        pullToGo fuel r.state out' numFrames (total + r.count)
    else (ring, out, total)

/-- `FullDuplexEngine::pullTo(out, numFrames)`: run the read loop; on
a shortfall, zero-fill the remainder of `out` and, unless the call is
within 300 ms of `start()`, add the deficit to `mUnderflows`; always
return `numFrames`. -/
def pullTo (ring : RingBuffer) (underflows : ℤ) (elapsedNs : ℕ)
    (out : ℕ → ℚ) (numFrames : ℕ) :
    ℕ × (ℕ → ℚ) × RingBuffer × ℤ :=
  let lp := pullToGo numFrames ring out numFrames 0
  let total := lp.2.2
  if total < numFrames then
    let ch := ring.channels
    let out2 := fun j =>
      if total * ch ≤ j ∧ j < numFrames * ch then 0 else lp.2.1 j
    let warming := elapsedNs < 300000000
    let underflows' :=
      if warming then underflows else underflows + ((numFrames - total : ℕ) : ℤ)
    (numFrames, out2, lp.1, underflows')
  else (numFrames, lp.2.1, lp.1, underflows)

theorem readInterleaved_count (ring : RingBuffer) (f : ℕ) :
    (ring.readInterleaved f).count = min f ring.availableToRead := rfl

theorem readInterleaved_state (ring : RingBuffer) (f : ℕ) :
    (ring.readInterleaved f).state.read =
        ring.read + min f ring.availableToRead ∧
    (ring.readInterleaved f).state.write = ring.write ∧
    (ring.readInterleaved f).state.channels = ring.channels :=
  ⟨rfl, rfl, rfl⟩

/-- The `pullTo` read loop transfers exactly
`min(numFrames - total, available)` further frames: one full-size read
when the ring has enough, a short read followed by a zero-`got` break
otherwise. -/
theorem pullToGo_total :
    ∀ (fuel : ℕ) (ring : RingBuffer) (out : ℕ → ℚ) (numFrames total : ℕ),
      ring.read ≤ ring.write → numFrames - total ≤ fuel →
      (pullToGo fuel ring out numFrames total).2.2 =
        total + min (numFrames - total) ring.availableToRead := by
  intro fuel
  induction fuel with
  | zero =>
      intro ring out numFrames total hrw hfuel
      have h0 : (pullToGo 0 ring out numFrames total).2.2 = total := rfl
      rw [h0]
      omega
  | succ fuel ih =>
      intro ring out numFrames total hrw hfuel
      simp only [pullToGo]
      by_cases hlt : total < numFrames
      · rw [if_pos hlt]
        have hcount := readInterleaved_count ring (numFrames - total)
        obtain ⟨hr1, hr2, _⟩ := readInterleaved_state ring (numFrames - total)
        by_cases hzero : (ring.readInterleaved (numFrames - total)).count = 0
        · rw [if_pos hzero]
          show total = total + min (numFrames - total) ring.availableToRead
          rw [hcount] at hzero
          omega
        · rw [if_neg hzero]
          have havail :
              (ring.readInterleaved (numFrames - total)).state.availableToRead =
                ring.availableToRead -
                  min (numFrames - total) ring.availableToRead := by
            simp only [RingBuffer.availableToRead, hr1, hr2]
            omega
          rw [ih _ _ numFrames _ (by
                simp only [RingBuffer.availableToRead] at *
                omega)
              (by omega)]
          rw [havail, hcount]
          simp only [RingBuffer.availableToRead] at *
          omega
      · rw [if_neg hlt]
        show total = total + min (numFrames - total) ring.availableToRead
        omega

/-- C8: `pullTo` semantics.  For every ring state (with the SPSC
counter invariant `read ≤ write`), every prior underflow count and
every elapsed time since `start()`: the call returns exactly
`numFrames`; when fewer than `numFrames` frames are available the
remainder of `out` (beyond the `min(numFrames, available)` copied
frames) is zero-filled and the deficit is added to the underflow
counter if and only if at least 300 ms have elapsed since `start()`
(within the warm-up window the counter is unchanged); with no
shortfall the counter is unchanged. -/
theorem pullTo_spec (ring : RingBuffer) (underflows : ℤ) (elapsedNs : ℕ)
    (out : ℕ → ℚ) (numFrames : ℕ) (hrw : ring.read ≤ ring.write) :
    (pullTo ring underflows elapsedNs out numFrames).1 = numFrames ∧
    (∀ j, min numFrames ring.availableToRead * ring.channels ≤ j →
      j < numFrames * ring.channels →
      (pullTo ring underflows elapsedNs out numFrames).2.1 j = 0) ∧
    (min numFrames ring.availableToRead < numFrames →
      (pullTo ring underflows elapsedNs out numFrames).2.2.2 =
        underflows +
          (if elapsedNs < 300000000 then 0
           else ((numFrames - min numFrames ring.availableToRead : ℕ) : ℤ))) ∧
    (min numFrames ring.availableToRead = numFrames →
      (pullTo ring underflows elapsedNs out numFrames).2.2.2 = underflows) := by
  have htotal := pullToGo_total numFrames ring out numFrames 0 hrw (by omega)
  rw [Nat.sub_zero, Nat.zero_add] at htotal
  unfold pullTo
  dsimp only
  rw [htotal]
  by_cases hshort : min numFrames ring.availableToRead < numFrames
  · rw [if_pos hshort]
    refine ⟨rfl, ?_, ?_, ?_⟩
    · intro j hj1 hj2
      exact if_pos ⟨hj1, hj2⟩
    · intro _
      by_cases hwarm : elapsedNs < 300000000
      · rw [if_pos hwarm, if_pos hwarm]
        show underflows = underflows + 0
        ring
      · rw [if_neg hwarm, if_neg hwarm]
    · intro heq
      exact absurd heq (by omega)
  · rw [if_neg hshort]
    have hmineq : min numFrames ring.availableToRead = numFrames := by omega
    refine ⟨rfl, ?_, fun h => absurd h hshort, fun _ => rfl⟩
    intro j hj1 hj2
    rw [hmineq] at hj1
    omega

/-- C8 witness: `pullTo` on a capacity-2 stereo ring holding one frame,
asked for two frames, 400 ms after start (so the one-frame deficit is
counted). -/
theorem pullTo_spec_witness :
    (⟨2, 2, fun _ => 0, 0, 1⟩ : RingBuffer).read ≤
        (⟨2, 2, fun _ => 0, 0, 1⟩ : RingBuffer).write ∧
    ((pullTo ⟨2, 2, fun _ => 0, 0, 1⟩ 0 400000000 (fun _ => 7) 2).1 = 2 ∧
     (∀ j, min 2 (⟨2, 2, fun _ => 0, 0, 1⟩ : RingBuffer).availableToRead *
          (⟨2, 2, fun _ => 0, 0, 1⟩ : RingBuffer).channels ≤ j →
        j < 2 * (⟨2, 2, fun _ => 0, 0, 1⟩ : RingBuffer).channels →
        (pullTo ⟨2, 2, fun _ => 0, 0, 1⟩ 0 400000000 (fun _ => 7) 2).2.1 j = 0) ∧
     (min 2 (⟨2, 2, fun _ => 0, 0, 1⟩ : RingBuffer).availableToRead < 2 →
       (pullTo ⟨2, 2, fun _ => 0, 0, 1⟩ 0 400000000 (fun _ => 7) 2).2.2.2 =
         0 + (if (400000000 : ℕ) < 300000000 then 0
              else ((2 - min 2 (⟨2, 2, fun _ => 0, 0, 1⟩ :
                  RingBuffer).availableToRead : ℕ) : ℤ))) ∧
     (min 2 (⟨2, 2, fun _ => 0, 0, 1⟩ : RingBuffer).availableToRead = 2 →
       (pullTo ⟨2, 2, fun _ => 0, 0, 1⟩ 0 400000000 (fun _ => 7) 2).2.2.2 = 0)) :=
  ⟨by norm_num,
    pullTo_spec ⟨2, 2, fun _ => 0, 0, 1⟩ 0 400000000 (fun _ => 7) 2
      (by norm_num)⟩

end AndroidPort
